import Mathlib

/-!
# Verification of the `ultimate-matrix-rain` renderer

A shallow embedding, in Lean 4, of the CPU-side logic and the shader
arithmetic of the matrix-rain renderer (src/src/application.cpp,
src/src/filter.cpp, src/src/font.cpp and the common header), together with
proofs and refutations of a list of claims about it.

Modelling conventions:
* `float` values are modelled as exact rationals (`ℚ`); `float` division is
  modelled as `Option ℚ`, with `none` standing for the NaN produced by `0/0`.
* C++ truncation of a floating-point value to an integer type
  (`static_cast<std::size_t>`, `int32_t` initialisation) is modelled by
  `ratTrunc`, truncation toward zero on `ℚ`.
* machine-integer wraparound is written explicitly (`% 2 ^ 64`) where the
  source relies on it (the multiplicative glyph hash).
* fallible vector indexing is modelled with `List.getElem?` (`l[i]?`),
  `none` standing for an out-of-bounds access.
* textures are modelled as sampling functions: uv-space samplers
  (`(ℚ × ℚ) → Vec3`) for the bloom shaders, texel-indexed images
  (`ℤ × ℤ → Col4`) with explicit CLAMP_TO_EDGE for the blur filter.

The file is organised as: all definitions first, then all theorems.
-/

namespace MatrixRain

/-! ## Numeric preliminaries -/

/-- Truncation of a rational toward zero: the C++ conversion of a (finite)
floating-point value to an integer type.  `Int.tdiv` rounds toward zero. -/
def ratTrunc (q : ℚ) : ℤ := Int.tdiv q.num (q.den : ℤ)

/-- `std::round`: round to nearest, ties away from zero. -/
def roundQ (q : ℚ) : ℤ := if 0 ≤ q then ⌊q + 1 / 2⌋ else -⌊-q + 1 / 2⌋

/-- Conversion of a signed integer value to `std::size_t` (wrap mod `2^64`). -/
def size_t_cast (x : ℤ) : ℕ := (x % (2 ^ 64 : ℤ)).toNat

/-- Float division as it appears in the source: `x / 0` is NaN (or an
infinity), modelled as `none`. -/
def fdivQ (a b : ℚ) : Option ℚ := if b = 0 then none else some (a / b)

/-- The 3-component vector of `common.h`, one rational per channel.  The
source's `vec` operators act componentwise. -/
structure Vec3 where
  vx : ℚ
  vy : ℚ
  vz : ℚ
deriving DecidableEq

/-- `vec::operator+` (componentwise addition, common.h). -/
def Vec3.vadd (a b : Vec3) : Vec3 := ⟨a.vx + b.vx, a.vy + b.vy, a.vz + b.vz⟩

/-- `vec::operator*` with a scalar (common.h). -/
def Vec3.vscale (a : Vec3) (s : ℚ) : Vec3 := ⟨a.vx * s, a.vy * s, a.vz * s⟩

def Vec3.zero : Vec3 := ⟨0, 0, 0⟩

/-- An RGBA texel, one rational per channel. -/
structure Col4 where
  cr : ℚ
  cg : ℚ
  cb : ℚ
  ca : ℚ
deriving DecidableEq

def Col4.rgb (c : Col4) : Vec3 := ⟨c.cr, c.cg, c.cb⟩

/-- GLSL `mix(a, b, t) = a * (1 - t) + b * t`, per channel. -/
def mixQ (a b t : ℚ) : ℚ := a * (1 - t) + b * t

/-- GLSL `mix` on a 3-vector. -/
def vmix (a b : Vec3) (t : ℚ) : Vec3 :=
  ⟨mixQ a.vx b.vx t, mixQ a.vy b.vy t, mixQ a.vz b.vz t⟩

/-! ## Falling-string initialisation (application.cpp, init_falling_string) -/

/-- `RAND_MAX` of glibc, the value the source divides by. -/
def RAND_MAX : ℕ := 2147483647

/-- The depth-layer table `s_depth_layers` (application.cpp line 490). -/
def s_depth_layers : List ℚ := [15 / 100, 30 / 100, 50 / 100, 1]

def s_col_count : ℕ := 100
def s_falling_string_min_length : ℕ := 15
def s_falling_string_max_length : ℕ := 40
def s_falling_string_min_speed : ℕ := 10
def s_falling_string_max_speed : ℕ := 30

/-- `get_random_layer` (application.cpp lines 558-563): draw
`t = rand() / float(RAND_MAX)` and return `size_t(t * t * layer_count)`,
as a function of the value `r` returned by `rand()`. -/
def get_random_layer (r : ℕ) : ℕ :=
  (ratTrunc ((r / (RAND_MAX : ℚ)) * (r / (RAND_MAX : ℚ)) * (s_depth_layers.length : ℚ))).toNat

/-- `s.speed = min_speed + rand() % (max_speed - min_speed)` as a function of
the `rand()` value (application.cpp line 566). -/
def init_speed (r : ℕ) : ℕ :=
  s_falling_string_min_speed + r % (s_falling_string_max_speed - s_falling_string_min_speed)

/-- `s.length = min_length + rand() % (max_length - min_length)` as a function
of the `rand()` value (application.cpp line 567). -/
def init_length (r : ℕ) : ℕ :=
  s_falling_string_min_length + r % (s_falling_string_max_length - s_falling_string_min_length)

/-! ## Per-row fade computation (application.cpp, update_falling_string) -/

/-- The per-row fade fraction `t = float(y - min_y) / (max_y - min_y)`
(application.cpp line 615), computed from the row `y` and the string bounds.
There is no special case in the source: the division happens unconditionally. -/
def fade_t (min_y max_y y : ℤ) : Option ℚ :=
  fdivQ ((y : ℚ) - (min_y : ℚ)) ((max_y : ℚ) - (min_y : ℚ))

/-- Modelled from the spec: the fade fraction with the division-by-zero
special case the specification asks for — `t = 1.0` when `max_y == min_y`
(the single-row case). -/
def spec_fade_t (min_y max_y y : ℤ) : Option ℚ :=
  if max_y = min_y then some 1
  else fdivQ ((y : ℚ) - (min_y : ℚ)) ((max_y : ℚ) - (min_y : ℚ))

/-! ## Bloom mip chain (filter.cpp, bloom::resize and bloom::compute) -/

/-- The `m_sizes` chain built by `bloom::resize` (filter.cpp lines 240-245):
push `(w, h)` and halve both (integer division) while both are at least 1. -/
def mip_sizes (w h : ℕ) : List (ℕ × ℕ) :=
  if 1 ≤ w ∧ 1 ≤ h then (w, h) :: mip_sizes (w / 2) (h / 2) else []
termination_by w
decreasing_by exact Nat.div_lt_self (by omega) (by omega)

/-- The sequence of mip indices `bloom::compute` (filter.cpp lines 278-357)
uses to address `m_sizes` / `m_tx_downsample` / `m_tx_upsample`, for a chain
of length `len`: the prefilter writes mip 0; the downsample loop reads
`i - 1` and writes `i` for `i = 1 .. len - 1`; the clear targets
`m_tx_upsample.back()` (index `len - 1`); the upsample loop, for
`i = len - 2 .. 0`, writes `i` and reads `i + 1` and `i`; the returned
texture is `m_tx_upsample.front()` (index 0). -/
def bloom_compute_accesses (len : ℕ) : List ℕ :=
  [0] ++ ((List.range' 1 (len - 1)).flatMap fun i => [i, i - 1]) ++ [len - 1] ++
    (((List.range (len - 1)).reverse).flatMap fun i => [i, i + 1, i]) ++ [0]

/-! ## Bloom upsample shader (filter.cpp, s_fs_bloom_upsample) -/

/-- A texture as a uv-space sampling function. -/
def Sampler : Type := (ℚ × ℚ) → Vec3

/-- The fragment shader `s_fs_bloom_upsample` (filter.cpp lines 112-140):
`s = 1 / textureSize(uDownsample)`; nine taps of `uDownsample` around `fUv`
with tent weights 1-2-1 / 2-4-2 / 1-2-1; output is the weighted sum divided
by 16, plus a single plain tap of `uPrevious` at `fUv`. -/
def bloom_upsample_shader (uPrevious uDownsample : Sampler) (s : ℚ × ℚ)
    (fUv : ℚ × ℚ) : Vec3 :=
  let tap : ℚ → ℚ → ℚ → Vec3 := fun w dx dy =>
    (uDownsample (fUv.1 + dx, fUv.2 + dy)).vscale w
  let upsampleColor :=
    ((((((((Vec3.zero.vadd (tap 1 (-s.1) s.2)).vadd
      (tap 2 0 s.2)).vadd
      (tap 1 s.1 s.2)).vadd
      (tap 2 (-s.1) 0)).vadd
      (tap 4 0 0)).vadd
      (tap 2 s.1 0)).vadd
      (tap 1 (-s.1) (-s.2))).vadd
      (tap 2 0 (-s.2))).vadd
      (tap 1 s.1 (-s.2))
  (upsampleColor.vscale (1 / 16)).vadd (uPrevious fUv)

/-- Modelled from the spec: the upsample rule the specification describes —
the 3×3 tent filter applied to the NEXT-SMALLER UPSAMPLE level (`uPrevious`),
added to a plain sample of the downsample level at that size. -/
def spec_bloom_upsample_shader (uPrevious uDownsample : Sampler) (s : ℚ × ℚ)
    (fUv : ℚ × ℚ) : Vec3 :=
  let tap : ℚ → ℚ → ℚ → Vec3 := fun w dx dy =>
    (uPrevious (fUv.1 + dx, fUv.2 + dy)).vscale w
  let upsampleColor :=
    ((((((((Vec3.zero.vadd (tap 1 (-s.1) s.2)).vadd
      (tap 2 0 s.2)).vadd
      (tap 1 s.1 s.2)).vadd
      (tap 2 (-s.1) 0)).vadd
      (tap 4 0 0)).vadd
      (tap 2 s.1 0)).vadd
      (tap 1 (-s.1) (-s.2))).vadd
      (tap 2 0 (-s.2))).vadd
      (tap 1 s.1 (-s.2))
  (upsampleColor.vscale (1 / 16)).vadd (uDownsample fUv)

/-- The upsample images produced by the loop of `bloom::compute` (filter.cpp
lines 326-355), indexed from the bottom of the chain: `up_rec 0` is the
cleared last level (`m_tx_upsample.back()` after `glClear`, black), and each
further step runs the upsample shader with `uPrevious` the level just
computed and `uDownsample` the downsample image of the level being written.
`down i` is the content of `m_tx_downsample[i]` and `s i` the texel size
`1 / textureSize` at level `i`. -/
def up_rec (down : ℕ → Sampler) (s : ℕ → ℚ × ℚ) (len : ℕ) : ℕ → Sampler
  | 0 => fun _ => Vec3.zero
  | k + 1 =>
    bloom_upsample_shader (up_rec down s len k)
      (down (len - 1 - (k + 1))) (s (len - 1 - (k + 1)))

/-- The content of `m_tx_upsample[i]` after the upsample loop. -/
def upsample_image (down : ℕ → Sampler) (s : ℕ → ℚ × ℚ) (len i : ℕ) : Sampler :=
  up_rec down s len (len - 1 - i)

/-- The texture `bloom::compute` returns: `m_tx_upsample.front()`, level 0. -/
def bloom_compute_result (down : ℕ → Sampler) (s : ℕ → ℚ × ℚ) (len : ℕ) : Sampler :=
  upsample_image down s len 0

/-- A one-pixel probe: 16 in the red channel at uv `(0, 0)`, black elsewhere. -/
def probe_down : Sampler := fun p => if p = ((0 : ℚ), (0 : ℚ)) then ⟨16, 0, 0⟩ else Vec3.zero

/-- The all-black sampler. -/
def black_sampler : Sampler := fun _ => Vec3.zero

/-! ## Blur filter (filter.cpp, s_fs_blur and blur_filter::apply) -/

/-- An RGBA image addressed by integer texel coordinates. -/
def Image : Type := ℤ × ℤ → Col4

/-- CLAMP_TO_EDGE texture addressing for a `w × h` texture. -/
def clampCoord (w h : ℕ) (p : ℤ × ℤ) : ℤ × ℤ :=
  (max 0 (min ((w : ℤ) - 1) p.1), max 0 (min ((h : ℤ) - 1) p.2))

/-- Sampling a `w × h` texture with CLAMP_TO_EDGE at a texel coordinate. -/
def sampleTex (img : Image) (w h : ℕ) (p : ℤ × ℤ) : Col4 := img (clampCoord w h p)

/-- `KERNEL` of the blur fragment shader (filter.cpp lines 36-38). -/
def blur_kernel : ℕ → ℚ
  | 0 => 1 / 4
  | 1 => 1 / 2
  | 2 => 1 / 4
  | _ => 0

/-- One pass of the blur fragment shader `s_fs_blur` (filter.cpp lines
26-59), compiled with HORIZONTAL (`dir = (1, 0)`) or VERTICAL
(`dir = (0, 1)`): three taps one texel apart along `dir`, weighted by
`KERNEL`; the result is `mix(center, blurred, uStrength)` on RGB, and the
output alpha is the constant 1. -/
def blur_pass (dir : ℤ × ℤ) (strength : ℚ) (w h : ℕ) (img : Image) : Image :=
  fun p =>
    let tap : ℕ → Vec3 := fun i =>
      ((sampleTex img w h
        (p.1 + ((i : ℤ) - 1) * dir.1, p.2 + ((i : ℤ) - 1) * dir.2)).rgb).vscale
        (blur_kernel i)
    let color := ((Vec3.zero.vadd (tap 0)).vadd (tap 1)).vadd (tap 2)
    let weighted := vmix ((sampleTex img w h p).rgb) color strength
    ⟨weighted.vx, weighted.vy, weighted.vz, 1⟩

/-- `blur_filter::apply` (filter.cpp lines 168-202): `iterations` rounds of a
horizontal pass (target → ping-pong) followed by a vertical pass
(ping-pong → target), all at the same strength and resolution. -/
def blur_apply (strength : ℚ) (w h : ℕ) (iters : ℕ) (img : Image) : Image :=
  (fun im => blur_pass (0, 1) strength w h (blur_pass (1, 0) strength w h im))^[iters] img

/-- Modelled from the spec: the fully-filtered separable 3-tap convolution
along `dir` — the blurred colour without any blending with the original. -/
def spec_blur_conv (dir : ℤ × ℤ) (w h : ℕ) (img : Image) (p : ℤ × ℤ) : Vec3 :=
  let tap : ℕ → Vec3 := fun i =>
    ((sampleTex img w h
      (p.1 + ((i : ℤ) - 1) * dir.1, p.2 + ((i : ℤ) - 1) * dir.2)).rgb).vscale
      (blur_kernel i)
  ((Vec3.zero.vadd (tap 0)).vadd (tap 1)).vadd (tap 2)

/-- A constant image whose alpha channel is 0 everywhere. -/
def zero_alpha_img : Image := fun _ => ⟨0, 0, 0, 0⟩

/-! ## Glyph table (font.h, font.cpp, application.cpp) -/

/-- A glyph entry (font.h): code point, two UV corners, normalized advance,
offset and size. -/
structure Glyph where
  code_point : ℤ
  uv0 : ℚ × ℚ
  uv1 : ℚ × ℚ
  norm_advance : ℚ
  norm_offset : ℚ × ℚ
  norm_size : ℚ × ℚ
deriving DecidableEq

/-- The index computed by `get_random_glyph` (application.cpp lines 598-604):
`static_cast<std::size_t>(x * s0 + y * s1) % glyphs.size()` with
`s0 = 2836`, `s1 = 23873`; the `int32_t` coordinates are converted to
`size_t` and the arithmetic wraps mod `2^64`. -/
def glyph_hash_index (x y : ℤ) (n : ℕ) : ℕ :=
  ((size_t_cast x * 2836) % 2 ^ 64 + (size_t_cast y * 23873) % 2 ^ 64) % 2 ^ 64 % n

/-- `get_random_glyph(x, y)` (application.cpp lines 598-604) as a function of
the coordinates and the current glyph table (`s_font->get_glyphs()`). -/
def get_random_glyph (x y : ℤ) (glyphs : List Glyph) : Option Glyph :=
  glyphs[glyph_hash_index x y glyphs.length]?

/-- `rng::next(std::size_t{0}, size)` (common.h lines 102-107 and the
`uniform_real_distribution<float>(0, 1)` engine): `0 + size_t((size - 0) * u)`
where `u` is the unit draw. -/
def rng_next_index (size : ℕ) (u : ℚ) : ℕ := (ratTrunc ((size : ℚ) * u)).toNat

/-- One iteration of `font::swap_glyphs` (font.cpp lines 139-144): draw two
indices with `rng::next(0, size)` and `std::swap(m_glyphs[idx0], m_glyphs[idx1])`;
`none` models the out-of-bounds access an index `≥ size` would be. -/
def swap_glyphs_once (gs : List Glyph) (u0 u1 : ℚ) : Option (List Glyph) :=
  let i := rng_next_index gs.length u0
  let j := rng_next_index gs.length u1
  match gs[i]?, gs[j]? with
  | some gi, some gj => some ((gs.set i gj).set j gi)
  | _, _ => none

/-- `font::swap_glyphs(count)` (font.cpp lines 137-145) with the sequence of
`count` pairs of rng draws given explicitly. -/
def swap_glyphs (gs : List Glyph) (draws : List (ℚ × ℚ)) : Option (List Glyph) :=
  draws.foldlM (fun g d => swap_glyphs_once g d.1 d.2) gs

/-- The operations the application performs on the glyph table: pure lookups
(`get_random_glyph`, which only reads) and `swap_glyphs` iterations. -/
inductive FontOp where
  | lookup (x y : ℤ)
  | swap (u0 u1 : ℚ)

def FontOp.isSwap : FontOp → Bool
  | .lookup _ _ => false
  | .swap _ _ => true

/-- Running a sequence of operations on the glyph table: a lookup leaves the
table unchanged; a swap exchanges two entries. -/
def font_run (gs : List Glyph) (ops : List FontOp) : Option (List Glyph) :=
  ops.foldlM (fun g op =>
    match op with
    | .lookup _ _ => some g
    | .swap u0 u1 => swap_glyphs_once g u0 u1) gs

/-- A concrete glyph for witnesses. -/
def glyph_A : Glyph := ⟨65, (0, 0), (1 / 2, 1 / 2), 1 / 2, (0, 0), (1 / 2, 1 / 2)⟩

/-- A second concrete glyph for witnesses. -/
def glyph_B : Glyph := ⟨66, (1 / 2, 0), (1, 1 / 2), 1 / 2, (0, 0), (1 / 2, 1 / 2)⟩

/-! ## Colour palette (color_palette::get, common.h of the bloom variant) -/

/-- `color_palette<N>::get(t)` (the `color_palette` struct of the common
header, lines 104-120 of that file): `idx0 = int32_t(t * (N - 1))`; if
`idx0 >= N - 1` (an `int`/`size_t` comparison) return the last colour, else
linearly interpolate `colors[idx0]` and `colors[idx0 + 1]` at
`t0 = t * (N - 1) - idx0`.  Floats are exact rationals here and `idx0` an
unbounded integer; for the nonnegative `idx0` produced by `t ≥ 0` (the range
the theorems cover) the source's unsigned comparison agrees with the
mathematical one used here.  `none` models an out-of-bounds access. -/
def palette_get (colors : List Vec3) (t : ℚ) : Option Vec3 :=
  let n := colors.length
  let idx0 : ℤ := ratTrunc (t * ((n : ℚ) - 1))
  if (n : ℤ) - 1 ≤ idx0 then colors[n - 1]?
  else
    let t0 : ℚ := t * ((n : ℚ) - 1) - (idx0 : ℚ)
    match colors[idx0.toNat]?, colors[idx0.toNat + 1]? with
    | some c0, some c1 => some ((c0.vscale (1 - t0)).vadd (c1.vscale t0))
    | _, _ => none

/-! ## Falling-string cell emission (application.cpp, update_falling_string) -/

/-- The mutable state of one falling string (application.cpp lines 470-477). -/
structure FallingString where
  x : ℤ
  y : ℚ
  speed : ℚ
  layer_index : ℕ
  length : ℤ

/-- The per-frame colour palette of the rain (application.cpp lines 538-541). -/
def s_color_palette : List Vec3 := [⟨0, 1, 0⟩, ⟨1 / 10, 2, 3 / 10⟩]

/-- `s_depth_layers_fade` (application.cpp lines 497-503): the squares of the
depth factors. -/
def s_depth_layers_fade : List ℚ := s_depth_layers.map fun d => d * d

/-- One character cell as filled by the loop body of `update_falling_string`
(application.cpp lines 615-625).  `grid_cell` stores six quad vertices; its
setters give every vertex the same colour, take the UV rectangle from the
glyph, and build the quad from the position and cell size
(common.cpp lines 101-129), so the record of those four quantities carries
the same information.  The colour is `Option`-valued because the fade
fraction can be NaN, and the glyph is `Option`-valued because the hash lookup
fails on an empty table. -/
structure GridCell where
  ccolor : Option (Vec3 × ℚ)
  cglyph : Option Glyph
  cpos : ℚ × ℚ
  csize : ℚ

/-- The rows visited by the emission loop of `update_falling_string`
(application.cpp lines 610-613): `y` from `min_y` to `max_y` inclusive with
`max_y = round(s.y)` and `min_y = max_y - s.length + 1`. -/
def update_rows (s : FallingString) : List ℤ :=
  let max_y := roundQ s.y
  let min_y := max_y - s.length + 1
  (List.range (max_y - min_y + 1).toNat).map fun k : ℕ => min_y + (k : ℤ)

/-- The loop body of `update_falling_string` for row `y` (application.cpp
lines 615-623): fade `t`, colour `(palette.get(t), t * fade[layer])`, glyph
from the coordinate hash, position `(x, y) * cell_size`. -/
def emit_cell (s : FallingString) (cell_size : ℚ) (glyphs : List Glyph) (y : ℤ) : GridCell :=
  let max_y := roundQ s.y
  let min_y := max_y - s.length + 1
  let t := fade_t min_y max_y y
  { ccolor := t.bind fun tq => (palette_get s_color_palette tq).map
      fun c => (c, tq * s_depth_layers_fade.getD s.layer_index 0)
    cglyph := get_random_glyph s.x y glyphs
    cpos := ((s.x : ℚ) * cell_size, (y : ℚ) * cell_size)
    csize := cell_size }

/-- The cells a single `update_falling_string` call appends to the grid of
the string's layer (application.cpp lines 606-626):
`cell_size = view_width / s_col_count * depth`, one cell per loop row.  The
view height plays no part in the emission (it is only read by the respawn
check after the loop), so no visibility clipping happens here. -/
def update_emit (s : FallingString) (view_width : ℚ) (glyphs : List Glyph) : List GridCell :=
  let depth := s_depth_layers.getD s.layer_index 0
  let cell_size := view_width / (s_col_count : ℚ) * depth
  (update_rows s).map (emit_cell s cell_size glyphs)

/-- A concrete falling string for witnesses: column 3, head at `y = 2`,
layer 0, length 5 (its rows −2..2 reach above the screen). -/
def test_string : FallingString := ⟨3, 2, 10, 0, 5⟩

end MatrixRain

namespace MatrixRain

/-! ## Theorems -/

theorem ratTrunc_eq_floor {q : ℚ} (hq : 0 ≤ q) : ratTrunc q = ⌊q⌋ := by
  rw [ratTrunc, Int.tdiv_eq_ediv (Rat.num_nonneg.mpr hq) (by positivity), Rat.floor_def]

/-- C1: at `rand() = RAND_MAX` the drawn layer index equals the size of the
depth-layer table — it is NOT strictly below it, so `s_depth_layers[layer_index]`
is an out-of-bounds access.  `t = RAND_MAX / RAND_MAX = 1` exactly, so
`size_t(t * t * 4) = 4`. -/
theorem get_random_layer_out_of_bounds :
    get_random_layer RAND_MAX = s_depth_layers.length ∧
    ¬ get_random_layer RAND_MAX < s_depth_layers.length := by
  have h : get_random_layer RAND_MAX = 4 := by
    have h1 : ((RAND_MAX : ℚ) / (RAND_MAX : ℚ)) = 1 := by
      rw [div_self]; norm_num [RAND_MAX]
    unfold get_random_layer
    rw [h1]
    norm_num [s_depth_layers, ratTrunc]
    rfl
  refine ⟨by simp [h, s_depth_layers], by simp [h, s_depth_layers]⟩

/-- C5 counterexample: neither the configured maximum speed (30) nor the
configured maximum length (40) can ever be drawn — `min + rand() % (max - min)`
ranges over `[min, max - 1]` — so the draw is not uniform over the closed
ranges `[min_speed, max_speed]` and `[min_length, max_length]`. -/
theorem init_speed_length_max_never_drawn :
    (¬ ∃ r : ℕ, init_speed r = s_falling_string_max_speed) ∧
    (¬ ∃ r : ℕ, init_length r = s_falling_string_max_length) := by
  constructor
  · rintro ⟨r, h⟩
    simp only [init_speed, s_falling_string_min_speed, s_falling_string_max_speed] at h
    omega
  · rintro ⟨r, h⟩
    simp only [init_length, s_falling_string_min_length, s_falling_string_max_length] at h
    omega

/-- C5 (amended): after every `init_falling_string`, the speed lies in
`[min_speed, max_speed - 1]` and the length in `[min_length, max_length - 1]`
(hence within the configured closed `[min, max]` ranges), and every value in
those half-open ranges is attainable by some `rand()` draw. -/
theorem init_speed_length_ranges (r v : ℕ) :
    (s_falling_string_min_speed ≤ init_speed r ∧
      init_speed r ≤ s_falling_string_max_speed - 1) ∧
    (s_falling_string_min_length ≤ init_length r ∧
      init_length r ≤ s_falling_string_max_length - 1) ∧
    (s_falling_string_min_speed ≤ v → v ≤ s_falling_string_max_speed - 1 →
      ∃ r2 : ℕ, r2 ≤ RAND_MAX ∧ init_speed r2 = v) ∧
    (s_falling_string_min_length ≤ v → v ≤ s_falling_string_max_length - 1 →
      ∃ r2 : ℕ, r2 ≤ RAND_MAX ∧ init_length r2 = v) := by
  simp only [init_speed, init_length, s_falling_string_min_speed,
    s_falling_string_max_speed, s_falling_string_min_length,
    s_falling_string_max_length, RAND_MAX]
  refine ⟨by omega, by omega, ?_, ?_⟩
  · intro h1 h2
    exact ⟨v - 10, by omega⟩
  · intro h1 h2
    exact ⟨v - 15, by omega⟩

/-- C5 witness: instantiating the range theorem at concrete draws. -/
theorem init_speed_length_ranges_witness :
    (s_falling_string_min_speed ≤ init_speed 7 ∧
      init_speed 7 ≤ s_falling_string_max_speed - 1) ∧
    (∃ r2 : ℕ, r2 ≤ RAND_MAX ∧ init_length r2 = 39) := by
  obtain ⟨hs, _, _, hl⟩ := init_speed_length_ranges 7 39
  exact ⟨hs, hl (by decide) (by decide)⟩

/-- C4 counterexample: for a string of length 1 (here `min_y = max_y = y = 0`)
the source's fade computation divides by zero and produces NaN (`none`), not
the `1.0` the claim asserts; the special-cased version demanded by the spec
would return `1`. -/
theorem fade_t_length_one_nan :
    fade_t 0 0 0 = none ∧ fade_t 0 0 0 ≠ some 1 ∧ spec_fade_t 0 0 0 = some 1 := by
  refine ⟨by simp [fade_t, fdivQ], by simp [fade_t, fdivQ], by simp [spec_fade_t]⟩

/-- C4 (amended): `update_falling_string` does NOT special-case `length == 1`;
the fade divides by `max_y - min_y` unconditionally, so a length-1 string
would produce a NaN fade.  However every length produced by
`init_falling_string` is at least `min_length = 15 ≥ 2`, and for any length
`≥ 2` the divisor `max_y - min_y = length - 1` is nonzero, so no NaN fade
fraction arises for any string the program actually creates. -/
theorem fade_t_well_defined (r : ℕ) (len max_y y : ℤ) (hlen : 2 ≤ len) :
    2 ≤ (init_length r : ℤ) ∧
    fade_t (max_y - len + 1) max_y y =
      some (((y : ℚ) - ((max_y - len + 1 : ℤ) : ℚ)) / ((len : ℚ) - 1)) := by
  constructor
  · simp only [init_length, s_falling_string_min_length, s_falling_string_max_length]
    omega
  · have hcast : ((max_y : ℚ)) - ((max_y - len + 1 : ℤ) : ℚ) = (len : ℚ) - 1 := by
      push_cast; ring
    have hne : ((len : ℚ) - 1) ≠ 0 := by
      intro h
      have h1 : (len : ℚ) = 1 := by linarith
      have h2 : len = 1 := by exact_mod_cast h1
      omega
    simp only [fade_t, fdivQ, hcast]
    rw [if_neg hne]

/-- C4 witness: a length-15 string (the minimum the initializer can produce)
has a well-defined fade at its head row. -/
theorem fade_t_well_defined_witness :
    2 ≤ (15 : ℤ) ∧ fade_t (0 - 15 + 1) 0 0 = some (((0 : ℚ) - ((-14 : ℤ) : ℚ)) / ((15 : ℚ) - 1)) := by
  have h := fade_t_well_defined 0 15 0 0 (by decide)
  exact ⟨by decide, by simpa using h.2⟩

theorem mip_sizes_length (w : ℕ) : ∀ h : ℕ, 1 ≤ w → 1 ≤ h →
    (mip_sizes w h).length = Nat.log2 (min w h) + 1 := by
  induction w using Nat.strong_induction_on with
  | _ w ih =>
    intro h hw hh
    rw [mip_sizes, if_pos ⟨hw, hh⟩]
    by_cases h2 : 2 ≤ w ∧ 2 ≤ h
    · have hrec := ih (w / 2) (Nat.div_lt_self (by omega) (by omega)) (h / 2)
        (by omega) (by omega)
      have hmin : min (w / 2) (h / 2) = min w h / 2 := by
        rcases Nat.le_total w h with hle | hle
        · rw [Nat.min_eq_left hle, Nat.min_eq_left (Nat.div_le_div_right hle)]
        · rw [Nat.min_eq_right hle, Nat.min_eq_right (Nat.div_le_div_right hle)]
      have hlog : Nat.log2 (min w h) = Nat.log2 (min w h / 2) + 1 := by
        rw [Nat.log2]
        rw [if_pos (by omega)]
      simp only [List.length_cons, hrec, hmin, hlog]
    · have hmin1 : min w h = 1 := by omega
      have hempty : mip_sizes (w / 2) (h / 2) = [] := by
        rw [mip_sizes, if_neg (by omega)]
      rw [hempty, hmin1]
      simp [Nat.log2]

theorem bloom_compute_accesses_lt (len : ℕ) (hlen : 1 ≤ len) :
    ∀ idx ∈ bloom_compute_accesses len, idx < len := by
  intro idx hidx
  simp only [bloom_compute_accesses, List.mem_append, List.mem_singleton,
    List.mem_flatMap, List.mem_reverse, List.mem_range, List.mem_range'_1,
    List.mem_cons, List.not_mem_nil, or_false] at hidx
  rcases hidx with (((h | h) | h) | h) | h
  · omega
  · obtain ⟨i, hi, hmem⟩ := h
    rcases hmem with rfl | rfl
    · omega
    · omega
  · omega
  · obtain ⟨i, hi, hmem⟩ := h
    rcases hmem with rfl | rfl | rfl
    · omega
    · omega
    · omega
  · omega

/-- C2: for all `w ≥ 1`, `h ≥ 1`, `bloom::resize(w, h)` builds a mip chain of
exactly `⌊log2 (min w h)⌋ + 1` size entries (so at least one), every mip index
a subsequent `bloom::compute` touches is strictly below the chain length, and
in particular the chain length is 1 for `(1, 1)` and 2 for `(3, 5)`. -/
theorem bloom_mip_chain_in_bounds (w h : ℕ) (hw : 1 ≤ w) (hh : 1 ≤ h) :
    (mip_sizes w h).length = Nat.log2 (min w h) + 1 ∧
    1 ≤ (mip_sizes w h).length ∧
    (∀ idx ∈ bloom_compute_accesses (mip_sizes w h).length,
      idx < (mip_sizes w h).length) ∧
    (mip_sizes 1 1).length = 1 ∧ (mip_sizes 3 5).length = 2 := by
  have hlen := mip_sizes_length w h hw hh
  refine ⟨hlen, by omega, bloom_compute_accesses_lt _ (by omega), ?_, ?_⟩
  · rw [mip_sizes_length 1 1 le_rfl le_rfl]
    norm_num
    rw [Nat.log2]
    norm_num
  · rw [mip_sizes_length 3 5 (by omega) (by omega)]
    norm_num
    rw [Nat.log2]
    norm_num
    rw [Nat.log2]
    norm_num

/-- C2 witness: the chain for `(3, 5)` has length 2 and `compute` stays in
bounds there. -/
theorem bloom_mip_chain_in_bounds_witness :
    (mip_sizes 3 5).length = Nat.log2 (min 3 5) + 1 ∧
    1 ≤ (mip_sizes 3 5).length ∧
    (∀ idx ∈ bloom_compute_accesses (mip_sizes 3 5).length,
      idx < (mip_sizes 3 5).length) ∧
    (mip_sizes 1 1).length = 1 ∧ (mip_sizes 3 5).length = 2 :=
  bloom_mip_chain_in_bounds 3 5 (by decide) (by decide)

/-- C3 counterexample: the upsample shader tent-filters `uDownsample` (the
downsample level of the written mip), not `uPrevious` (the next-smaller
upsample level) as the claim states.  With a single bright downsample texel
and a black previous level, the shader outputs `16 * 4 / 16 = 4`, while the
claimed rule would output the downsample texel unchanged (16). -/
theorem bloom_upsample_tent_on_downsample :
    bloom_upsample_shader black_sampler probe_down (1, 1) (0, 0) = ⟨4, 0, 0⟩ ∧
    spec_bloom_upsample_shader black_sampler probe_down (1, 1) (0, 0) = ⟨16, 0, 0⟩ ∧
    bloom_upsample_shader black_sampler probe_down (1, 1) (0, 0) ≠
      spec_bloom_upsample_shader black_sampler probe_down (1, 1) (0, 0) := by
  have hcode : bloom_upsample_shader black_sampler probe_down (1, 1) (0, 0) = ⟨4, 0, 0⟩ := by
    norm_num [bloom_upsample_shader, probe_down, black_sampler, Vec3.zero,
      Vec3.vadd, Vec3.vscale, Prod.ext_iff, Vec3.mk.injEq]
  have hspec : spec_bloom_upsample_shader black_sampler probe_down (1, 1) (0, 0) = ⟨16, 0, 0⟩ := by
    norm_num [spec_bloom_upsample_shader, probe_down, black_sampler, Vec3.zero,
      Vec3.vadd, Vec3.vscale, Prod.ext_iff, Vec3.mk.injEq]
  refine ⟨hcode, hspec, ?_⟩
  rw [hcode, hspec]
  intro hcontra
  have h4 : (4 : ℚ) = 16 := congrArg Vec3.vx hcontra
  norm_num at h4

/-- C3 (amended): in the upsample stage, for every mip level `i` strictly
smaller than the last, the upsample texture at level `i` equals the 3×3
tent-filtered sample (weights 1-2-1 / 2-4-2 / 1-2-1 normalized by 16) of the
DOWNSAMPLE level `i`, added to a plain (single-tap) sample of the next-smaller
upsample level `i + 1`; the last upsample level is cleared to black, and level
0 of the upsample chain is the final bloom texture returned by `compute`. -/
theorem upsample_chain_recurrence (down : ℕ → Sampler) (s : ℕ → ℚ × ℚ)
    (len i : ℕ) (hi : i + 1 < len) :
    upsample_image down s len i =
      bloom_upsample_shader (upsample_image down s len (i + 1)) (down i) (s i) ∧
    upsample_image down s len (len - 1) = (fun _ => Vec3.zero) ∧
    bloom_compute_result down s len = upsample_image down s len 0 := by
  refine ⟨?_, ?_, rfl⟩
  · have h1 : len - 1 - i = (len - 1 - (i + 1)) + 1 := by omega
    rw [upsample_image, h1, up_rec]
    have h2 : len - 1 - (len - 1 - (i + 1) + 1) = i := by omega
    rw [h2]
    rfl
  · rw [upsample_image, Nat.sub_self]
    rfl

/-- C3 witness: the recurrence instantiated on a two-level chain with the
probe textures. -/
theorem upsample_chain_recurrence_witness :
    upsample_image (fun _ => probe_down) (fun _ => (1, 1)) 2 0 =
      bloom_upsample_shader (upsample_image (fun _ => probe_down) (fun _ => (1, 1)) 2 1)
        (probe_down) ((1 : ℚ), (1 : ℚ)) ∧
    upsample_image (fun _ => probe_down) (fun _ => (1, 1)) 2 (2 - 1) = (fun _ => Vec3.zero) ∧
    bloom_compute_result (fun _ => probe_down) (fun _ => (1, 1)) 2 =
      upsample_image (fun _ => probe_down) (fun _ => (1, 1)) 2 0 :=
  upsample_chain_recurrence (fun _ => probe_down) (fun _ => (1, 1)) 2 0 (by decide)

/-- C6 counterexample: a blur pass writes alpha = 1 at every pixel, so
`apply` with `strength = 0` does not leave the target image unchanged when
some alpha differs from 1: on a constant alpha-0 image one iteration at
strength 0 yields alpha 1. -/
theorem blur_strength_zero_alpha_changed :
    blur_apply 0 1 1 1 zero_alpha_img ≠ zero_alpha_img ∧
    (blur_apply 0 1 1 1 zero_alpha_img (0, 0)).ca = 1 ∧
    (zero_alpha_img (0, 0)).ca = 0 := by
  have ha : (blur_apply 0 1 1 1 zero_alpha_img ((0 : ℤ), (0 : ℤ))).ca = 1 := by
    rw [blur_apply, Function.iterate_one]
    rfl
  refine ⟨?_, ha, rfl⟩
  intro h
  have h0 := congrFun h ((0 : ℤ), (0 : ℤ))
  rw [h0] at ha
  simp [zero_alpha_img] at ha

theorem clampCoord_of_mem {w h : ℕ} {p : ℤ × ℤ} (h1 : 0 ≤ p.1) (h2 : p.1 < w)
    (h3 : 0 ≤ p.2) (h4 : p.2 < h) : clampCoord w h p = p := by
  obtain ⟨a, b⟩ := p
  simp only [clampCoord, Prod.mk.injEq]
  constructor <;> omega

theorem blur_pass_strength_zero (dir : ℤ × ℤ) (w h : ℕ) (img : Image) (p : ℤ × ℤ) :
    (blur_pass dir 0 w h img p).rgb = (img (clampCoord w h p)).rgb := by
  simp only [blur_pass, sampleTex, vmix, mixQ, Col4.rgb, Vec3.mk.injEq]
  refine ⟨?_, ?_, ?_⟩ <;> ring

theorem blur_step_strength_zero_rgb (w h : ℕ) (img : Image) (p : ℤ × ℤ)
    (h1 : 0 ≤ p.1) (h2 : p.1 < w) (h3 : 0 ≤ p.2) (h4 : p.2 < h) :
    (blur_pass (0, 1) 0 w h (blur_pass (1, 0) 0 w h img) p).rgb = (img p).rgb := by
  rw [blur_pass_strength_zero, clampCoord_of_mem h1 h2 h3 h4,
    blur_pass_strength_zero, clampCoord_of_mem h1 h2 h3 h4]

/-- C6 (amended): at `strength = 0` every blur pass is the identity on the
RGB channels (the mix with factor 0 returns the centre sample), so any number
of `apply` iterations leaves the RGB image unchanged at every in-range pixel;
the alpha channel, however, is overwritten with the constant 1.  At
`strength = 1` a pass produces exactly the fully-filtered separable 3-tap
convolution along its direction (mix with factor 1 returns the blurred sum). -/
theorem blur_apply_strength_algebra (w h n : ℕ) (img : Image) (p dir : ℤ × ℤ)
    (h1 : 0 ≤ p.1) (h2 : p.1 < w) (h3 : 0 ≤ p.2) (h4 : p.2 < h) :
    (blur_apply 0 w h n img p).rgb = (img p).rgb ∧
    (1 ≤ n → (blur_apply 0 w h n img p).ca = 1) ∧
    (blur_pass dir 1 w h img p).rgb = spec_blur_conv dir w h img p := by
  refine ⟨?_, ?_, ?_⟩
  · induction n with
    | zero => rfl
    | succ m ih =>
      rw [blur_apply, Function.iterate_succ_apply']
      have := blur_step_strength_zero_rgb w h
        ((fun im => blur_pass (0, 1) 0 w h (blur_pass (1, 0) 0 w h im))^[m] img) p h1 h2 h3 h4
      rw [this]
      exact ih
  · intro hn
    obtain ⟨m, rfl⟩ : ∃ m, n = m + 1 := ⟨n - 1, by omega⟩
    rw [blur_apply, Function.iterate_succ_apply']
    rfl
  · simp only [blur_pass, spec_blur_conv, sampleTex, vmix, mixQ, Col4.rgb,
      Vec3.vadd, Vec3.vscale, Vec3.zero, Vec3.mk.injEq]
    refine ⟨?_, ?_, ?_⟩ <;> ring

/-- C6 witness: the algebra instantiated at a concrete pixel of a 2×2 image. -/
theorem blur_apply_strength_algebra_witness :
    (blur_apply 0 2 2 1 zero_alpha_img ((0 : ℤ), (1 : ℤ))).rgb =
      (zero_alpha_img ((0 : ℤ), (1 : ℤ))).rgb ∧
    (1 ≤ 1 → (blur_apply 0 2 2 1 zero_alpha_img ((0 : ℤ), (1 : ℤ))).ca = 1) ∧
    (blur_pass ((1 : ℤ), (0 : ℤ)) 1 2 2 zero_alpha_img ((0 : ℤ), (1 : ℤ))).rgb =
      spec_blur_conv ((1 : ℤ), (0 : ℤ)) 2 2 zero_alpha_img ((0 : ℤ), (1 : ℤ)) :=
  blur_apply_strength_algebra 2 2 1 zero_alpha_img ((0 : ℤ), (1 : ℤ)) ((1 : ℤ), (0 : ℤ))
    (by decide) (by decide) (by decide) (by decide)

theorem font_run_no_swap (gs : List Glyph) (ops : List FontOp)
    (hops : ∀ op ∈ ops, op.isSwap = false) : font_run gs ops = some gs := by
  induction ops with
  | nil => rfl
  | cons op ops ih =>
    cases op with
    | lookup x y =>
      exact ih fun o ho => hops o (List.mem_cons_of_mem _ ho)
    | swap u0 u1 =>
      have := hops _ (List.mem_cons_self _ _)
      simp [FontOp.isSwap] at this

/-- C7: glyph selection for a grid cell is a deterministic pure function of
the `(column, row)` pair and the current glyph table: running any sequence of
operations that contains no `swap_glyphs` leaves the table unchanged, so a
later lookup at the same `(x, y)` returns the same glyph as an earlier one,
and on a table with at least one entry the hash index is in bounds, so the
lookup always returns a glyph. -/
theorem get_random_glyph_stable (gs : List Glyph) (ops : List FontOp) (x y : ℤ)
    (hops : ∀ op ∈ ops, op.isSwap = false) (hne : gs ≠ []) :
    (font_run gs ops).map (get_random_glyph x y) = some (get_random_glyph x y gs) ∧
    ∃ g, get_random_glyph x y gs = some g := by
  constructor
  · rw [font_run_no_swap gs ops hops]
    rfl
  · have hlen : 0 < gs.length := List.length_pos.mpr hne
    have hidx : glyph_hash_index x y gs.length < gs.length := Nat.mod_lt _ hlen
    exact ⟨_, List.getElem?_eq_getElem hidx⟩

/-- C7 witness: two lookups around a swap-free run on a two-glyph table. -/
theorem get_random_glyph_stable_witness :
    (font_run [glyph_A, glyph_B] [FontOp.lookup 0 0, FontOp.lookup 3 7]).map
      (get_random_glyph 0 0) = some (get_random_glyph 0 0 [glyph_A, glyph_B]) ∧
    ∃ g, get_random_glyph 0 0 [glyph_A, glyph_B] = some g :=
  get_random_glyph_stable [glyph_A, glyph_B] [FontOp.lookup 0 0, FontOp.lookup 3 7] 0 0
    (by intro op hop
        simp only [List.mem_cons, List.not_mem_nil, or_false] at hop
        rcases hop with rfl | rfl <;> rw [FontOp.isSwap]) (by simp)

theorem cons_set_perm {α : Type} (a : α) (t : List α) (k : ℕ) (hk : k < t.length) :
    List.Perm (t.get ⟨k, hk⟩ :: t.set k a) (a :: t) := by
  have hset : t.set k a = t.take k ++ a :: t.drop (k + 1) :=
    List.set_eq_take_append_cons_drop.trans (if_pos hk)
  have ht : t = t.take k ++ t.get ⟨k, hk⟩ :: t.drop (k + 1) := by
    rw [List.get_eq_getElem, List.getElem_cons_drop t k hk, List.take_append_drop]
  have h1 : List.Perm (t.set k a) (a :: (t.take k ++ t.drop (k + 1))) := by
    rw [hset]; exact List.perm_middle
  have h3 : List.Perm (t.get ⟨k, hk⟩ :: (t.take k ++ t.drop (k + 1))) t := by
    conv_rhs => rw [ht]
    exact List.perm_middle.symm
  refine (List.Perm.cons _ h1).trans ?_
  refine (List.Perm.swap a _ _).trans ?_
  exact List.Perm.cons a h3

theorem set_set_perm {α : Type} : ∀ (l : List α) (i j : ℕ) (hi : i < l.length)
    (hj : j < l.length),
    List.Perm ((l.set i (l.get ⟨j, hj⟩)).set j (l.get ⟨i, hi⟩)) l := by
  intro l
  induction l with
  | nil => intro i j hi hj; simp at hi
  | cons a t ih =>
    intro i j hi hj
    match i, j with
    | 0, 0 => exact List.Perm.refl (a :: t)
    | 0, k + 1 =>
      have hk : k < t.length := by simpa using hj
      exact cons_set_perm a t k hk
    | m + 1, 0 =>
      have hm : m < t.length := by simpa using hi
      exact cons_set_perm a t m hm
    | m + 1, k + 1 =>
      have hm : m < t.length := by simpa using hi
      have hk : k < t.length := by simpa using hj
      exact List.Perm.cons a (ih m k hm hk)

theorem rng_next_index_lt (n : ℕ) (u : ℚ) (hn : 1 ≤ n) (h0 : 0 ≤ u) (h1 : u < 1) :
    rng_next_index n u < n := by
  have hnn : 0 ≤ ((n : ℚ)) * u := mul_nonneg (by positivity) h0
  rw [rng_next_index, ratTrunc_eq_floor hnn]
  have hn0 : (0 : ℚ) < (n : ℚ) := by exact_mod_cast hn
  have hlt : ⌊(n : ℚ) * u⌋ < (n : ℤ) := by
    apply Int.floor_lt.mpr
    push_cast
    calc (n : ℚ) * u < (n : ℚ) * 1 := by
          exact mul_lt_mul_of_pos_left h1 hn0
      _ = (n : ℚ) := mul_one _
  have hge : 0 ≤ ⌊(n : ℚ) * u⌋ := Int.floor_nonneg.mpr hnn
  omega

theorem swap_glyphs_once_perm (gs : List Glyph) (u0 u1 : ℚ) (hne : gs ≠ [])
    (h00 : 0 ≤ u0) (h01 : u0 < 1) (h10 : 0 ≤ u1) (h11 : u1 < 1) :
    ∃ gs2, swap_glyphs_once gs u0 u1 = some gs2 ∧ List.Perm gs2 gs := by
  have hn : 1 ≤ gs.length := List.length_pos.mpr hne
  have hi : rng_next_index gs.length u0 < gs.length := rng_next_index_lt _ _ hn h00 h01
  have hj : rng_next_index gs.length u1 < gs.length := rng_next_index_lt _ _ hn h10 h11
  refine ⟨_, ?_, set_set_perm gs _ _ hi hj⟩
  simp only [swap_glyphs_once, List.getElem?_eq_getElem hi, List.getElem?_eq_getElem hj,
    List.get_eq_getElem]

/-- C8: `font::swap_glyphs(count)` only exchanges the positions of existing
entries: with every rng draw in `[0, 1)` and a nonempty table, it succeeds
(all accesses in bounds), the result is a permutation of the previous table,
the glyph count is unchanged, and every glyph value occurs exactly as often
as before (no individual glyph's data is modified). -/
theorem swap_glyphs_permutes (draws : List (ℚ × ℚ)) : ∀ gs : List Glyph,
    (∀ d ∈ draws, 0 ≤ d.1 ∧ d.1 < 1 ∧ 0 ≤ d.2 ∧ d.2 < 1) → gs ≠ [] →
    ∃ gs2, swap_glyphs gs draws = some gs2 ∧ List.Perm gs2 gs ∧
      gs2.length = gs.length ∧ ∀ g : Glyph, gs2.count g = gs.count g := by
  induction draws with
  | nil =>
    intro gs _ _
    exact ⟨gs, rfl, List.Perm.refl gs, rfl, fun g => rfl⟩
  | cons d ds ih =>
    intro gs hdraws hne
    obtain ⟨h0, h1, h2, h3⟩ := hdraws d (List.mem_cons_self d ds)
    obtain ⟨g1, hg1, hperm1⟩ := swap_glyphs_once_perm gs d.1 d.2 hne h0 h1 h2 h3
    have hne1 : g1 ≠ [] := by
      intro hnil
      subst hnil
      exact hne (hperm1.symm.eq_nil)
    obtain ⟨gs2, hg2, hperm2, hlen2, hcount2⟩ :=
      ih g1 (fun e he => hdraws e (List.mem_cons_of_mem _ he)) hne1
    refine ⟨gs2, ?_, hperm2.trans hperm1, ?_, ?_⟩
    · rw [swap_glyphs, List.foldlM_cons, hg1]
      exact hg2
    · rw [hlen2, hperm1.length_eq]
    · intro g
      rw [hcount2 g, hperm1.count_eq g]

/-- C8 witness: one swap iteration on a two-glyph table with draws 0 and 1/2
(indices 0 and 1) — the table is permuted, nothing lost or altered. -/
theorem swap_glyphs_permutes_witness :
    ∃ gs2, swap_glyphs [glyph_A, glyph_B] [(0, 1 / 2)] = some gs2 ∧
      List.Perm gs2 [glyph_A, glyph_B] ∧
      gs2.length = [glyph_A, glyph_B].length ∧
      ∀ g : Glyph, gs2.count g = [glyph_A, glyph_B].count g :=
  swap_glyphs_permutes [(0, 1 / 2)] [glyph_A, glyph_B]
    (by intro d hd
        simp only [List.mem_cons, List.not_mem_nil, or_false] at hd
        subst hd
        norm_num) (by simp)

/-- C9: a single `update_falling_string` call appends exactly `length` cells
to the grid of the string's layer — one cell per row index from
`round(y) - length + 1` to `round(y)` inclusive, rows above or below the
view included (the emission does not read the view height, so no visibility
clipping is applied). -/
theorem update_emit_cells (s : FallingString) (vw : ℚ) (glyphs : List Glyph)
    (hlen : 0 ≤ s.length) :
    (update_emit s vw glyphs).length = s.length.toNat ∧
    (∀ r : ℤ, r ∈ update_rows s ↔
      roundQ s.y - s.length + 1 ≤ r ∧ r ≤ roundQ s.y) ∧
    ∀ k (hk : k < (update_emit s vw glyphs).length),
      (update_emit s vw glyphs).get ⟨k, hk⟩ =
        emit_cell s (vw / (s_col_count : ℚ) * s_depth_layers.getD s.layer_index 0)
          glyphs (roundQ s.y - s.length + 1 + (k : ℤ)) := by
  have hrows_len : (update_rows s).length = s.length.toNat := by
    simp only [update_rows, List.length_map, List.length_range]
    omega
  refine ⟨?_, ?_, ?_⟩
  · simp only [update_emit, List.length_map, hrows_len]
  · intro r
    simp only [update_rows, List.mem_map, List.mem_range]
    constructor
    · rintro ⟨k, hk, rfl⟩
      omega
    · rintro ⟨hr1, hr2⟩
      exact ⟨(r - (roundQ s.y - s.length + 1)).toNat, by omega, by omega⟩
  · intro k hk
    simp only [update_emit, update_rows, List.get_eq_getElem, List.getElem_map,
      List.getElem_range]

/-- C9 witness: the head-at-row-2 length-5 test string emits 5 cells at rows
−2..2, the negative rows included. -/
theorem update_emit_cells_witness :
    (update_emit test_string 100 [glyph_A]).length = (test_string.length).toNat ∧
    (∀ r : ℤ, r ∈ update_rows test_string ↔
      roundQ test_string.y - test_string.length + 1 ≤ r ∧ r ≤ roundQ test_string.y) ∧
    ∀ k (hk : k < (update_emit test_string 100 [glyph_A]).length),
      (update_emit test_string 100 [glyph_A]).get ⟨k, hk⟩ =
        emit_cell test_string
          ((100 : ℚ) / (s_col_count : ℚ) * s_depth_layers.getD test_string.layer_index 0)
          [glyph_A] (roundQ test_string.y - test_string.length + 1 + (k : ℤ)) :=
  update_emit_cells test_string 100 [glyph_A] (by decide)

/-- C10: for every palette with at least one entry and every `t ≥ 0`,
`color_palette::get` accesses only in-bounds indices (it always returns a
colour); it returns the last colour whenever `t ≥ 1`; and on a palette of at
least two colours, for `t ∈ [0, 1)` it returns the linear interpolation of
the two adjacent colours at index `⌊t (N−1)⌋` and the fractional position
`t0`. -/
theorem palette_get_in_bounds (colors : List Vec3) (t : ℚ)
    (hn : 1 ≤ colors.length) (ht : 0 ≤ t) :
    (∃ c, palette_get colors t = some c) ∧
    (1 ≤ t → palette_get colors t = colors[colors.length - 1]?) ∧
    (2 ≤ colors.length → t < 1 →
      ∃ c0 c1, colors[(⌊t * ((colors.length : ℚ) - 1)⌋).toNat]? = some c0 ∧
        colors[(⌊t * ((colors.length : ℚ) - 1)⌋).toNat + 1]? = some c1 ∧
        palette_get colors t =
          some ((c0.vscale (1 - (t * ((colors.length : ℚ) - 1) -
              (⌊t * ((colors.length : ℚ) - 1)⌋ : ℚ)))).vadd
            (c1.vscale (t * ((colors.length : ℚ) - 1) -
              (⌊t * ((colors.length : ℚ) - 1)⌋ : ℚ))))) := by
  have hn1 : (1 : ℚ) ≤ (colors.length : ℚ) := by exact_mod_cast hn
  have hA0 : 0 ≤ t * ((colors.length : ℚ) - 1) := mul_nonneg ht (by linarith)
  have htr : ratTrunc (t * ((colors.length : ℚ) - 1)) =
      ⌊t * ((colors.length : ℚ) - 1)⌋ := ratTrunc_eq_floor hA0
  have hfl0 : 0 ≤ ⌊t * ((colors.length : ℚ) - 1)⌋ := Int.floor_nonneg.mpr hA0
  refine ⟨?_, ?_, ?_⟩
  · by_cases hc : (colors.length : ℤ) - 1 ≤ ⌊t * ((colors.length : ℚ) - 1)⌋
    · rw [palette_get, htr, if_pos hc]
      exact ⟨_, List.getElem?_eq_getElem (by omega)⟩
    · have h1 : (⌊t * ((colors.length : ℚ) - 1)⌋).toNat < colors.length := by omega
      have h2 : (⌊t * ((colors.length : ℚ) - 1)⌋).toNat + 1 < colors.length := by omega
      rw [palette_get, htr, if_neg hc]
      simp only [List.getElem?_eq_getElem h1, List.getElem?_eq_getElem h2]
      exact ⟨_, rfl⟩
  · intro ht1
    have hc : (colors.length : ℤ) - 1 ≤ ⌊t * ((colors.length : ℚ) - 1)⌋ := by
      apply Int.le_floor.mpr
      push_cast
      calc ((colors.length : ℚ)) - 1 = 1 * ((colors.length : ℚ) - 1) := (one_mul _).symm
        _ ≤ t * ((colors.length : ℚ) - 1) :=
          mul_le_mul_of_nonneg_right ht1 (by linarith)
    rw [palette_get, htr, if_pos hc]
  · intro hn2 htlt
    have hn2q : (2 : ℚ) ≤ (colors.length : ℚ) := by exact_mod_cast hn2
    have hc : ¬ ((colors.length : ℤ) - 1 ≤ ⌊t * ((colors.length : ℚ) - 1)⌋) := by
      rw [not_le]
      apply Int.floor_lt.mpr
      push_cast
      calc t * ((colors.length : ℚ) - 1) < 1 * ((colors.length : ℚ) - 1) :=
            mul_lt_mul_of_pos_right htlt (by linarith)
        _ = (colors.length : ℚ) - 1 := one_mul _
    have h1 : (⌊t * ((colors.length : ℚ) - 1)⌋).toNat < colors.length := by omega
    have h2 : (⌊t * ((colors.length : ℚ) - 1)⌋).toNat + 1 < colors.length := by omega
    refine ⟨_, _, List.getElem?_eq_getElem h1, List.getElem?_eq_getElem h2, ?_⟩
    rw [palette_get, htr, if_neg hc]
    simp only [List.getElem?_eq_getElem h1, List.getElem?_eq_getElem h2]

/-- C10 witness: the two-colour rain palette at `t = 1/4` interpolates its
two entries in bounds. -/
theorem palette_get_in_bounds_witness :
    (∃ c, palette_get s_color_palette (1 / 4) = some c) ∧
    (1 ≤ (1 / 4 : ℚ) → palette_get s_color_palette (1 / 4) =
      s_color_palette[s_color_palette.length - 1]?) ∧
    (2 ≤ s_color_palette.length → (1 / 4 : ℚ) < 1 →
      ∃ c0 c1,
        s_color_palette[(⌊(1 / 4 : ℚ) * ((s_color_palette.length : ℚ) - 1)⌋).toNat]? = some c0 ∧
        s_color_palette[(⌊(1 / 4 : ℚ) * ((s_color_palette.length : ℚ) - 1)⌋).toNat + 1]? = some c1 ∧
        palette_get s_color_palette (1 / 4) =
          some ((c0.vscale (1 - ((1 / 4 : ℚ) * ((s_color_palette.length : ℚ) - 1) -
              (⌊(1 / 4 : ℚ) * ((s_color_palette.length : ℚ) - 1)⌋ : ℚ)))).vadd
            (c1.vscale ((1 / 4 : ℚ) * ((s_color_palette.length : ℚ) - 1) -
              (⌊(1 / 4 : ℚ) * ((s_color_palette.length : ℚ) - 1)⌋ : ℚ))))) :=
  palette_get_in_bounds s_color_palette (1 / 4) (by norm_num [s_color_palette]) (by norm_num)

end MatrixRain
